import Mathlib

/-!
Shallow embedding of the core of the wgpurenderer repository:
the id pool (src/src/utils.rs), the reference-counted storage
(src/src/shader.rs), the immediate-data byte-range allocator
(src/src/lib.rs, ImmediateManager) and the draw-call batching loop
(src/wgpurenderer/src/renderpass.rs), together with theorems settling
the specification claims.

Conventions of the embedding:
* `u32`/`usize` values are Nat; where overflow/underflow matters
  (the `range.start - start_pos` subtraction in `ImmediateManager::add`)
  usize subtraction is modelled as wrapping subtraction mod 2^64, which is
  the release-build semantics (debug builds panic at the same spot).
* A Rust `Vec` used as a stack (`IdPool::available`) is a Lean list whose
  head is the top of the stack: `push` conses, `pop` takes the head.
* A panic (a failed `debug_assert!` or `expect`) is modelled by a Bool
  component of the result: `false` means the operation panicked, and the
  state component is the state at the point of the panic.
* Rust `slice::sort_by` / `sort_by_key` are stable sorts.  A stable sort
  with a total preorder comparator has a uniquely determined output, so it
  is modelled by stable insertion sort (`sortByLe`).
-/

namespace WgpuRenderer

/-- usize word size: values wrap mod 2^64. -/
def USIZE : Nat := 2 ^ 64

/-- Wrapping usize subtraction (release-build semantics of `a - b`).
For `b <= a < 2^64` this is ordinary subtraction. -/
def usizeSub (a b : Nat) : Nat := (a + USIZE - b % USIZE) % USIZE

/-- `IdPool` from src/src/utils.rs: a monotone counter plus a LIFO stack of
freed ids.  `available` is the stack, head = most recently pushed. -/
structure IdPool where
  current : Nat
  available : List Nat
deriving Repr, DecidableEq

/-- `IdPool::new` (Default: counter 0, no freed ids). -/
def IdPool.new : IdPool := ⟨0, []⟩

/-- `IdPool::get_next`: pop a freed id if available, else hand out the
counter value and increment it.  Returns (id, updated pool). -/
def IdPool.get_next (p : IdPool) : Nat × IdPool :=
  match p.available with
  | id :: rest => (id, { p with available := rest })
  | [] => (p.current, { current := p.current + 1, available := [] })

/-- `IdPool::free`: `debug_assert!(id < current)` then push the id onto the
stack.  The Bool is `false` iff the assertion panicked (state unchanged). -/
def IdPool.free (p : IdPool) (id : Nat) : IdPool × Bool :=
  if id < p.current then ({ p with available := id :: p.available }, true)
  else (p, false)

/-- A half-open byte range `start..end` (Rust `Range<usize>`; the `end`
field is called `stop` because `end` is a Lean keyword). -/
structure URange where
  start : Nat
  stop : Nat
deriving Repr, DecidableEq

/-- Stable insertion of `a` into `l` before the first element `b` with
`le a b` (the insertion step of a stable sort). -/
def insertLe {α : Type} (le : α → α → Bool) (a : α) : List α → List α
  | [] => [a]
  | b :: l => if le a b then a :: b :: l else b :: insertLe le a l

/-- Stable sort with comparator `le`; models Rust `sort_by`/`sort_by_key`
(both stable), whose output is uniquely determined by stability. -/
def sortByLe {α : Type} (le : α → α → Bool) : List α → List α
  | [] => []
  | a :: l => insertLe le a (sortByLe le l)

/-- `vec.resize(n, v)`: truncate to `n` or pad with `v` up to length `n`. -/
def listResize {α : Type} (l : List α) (n : Nat) (v : α) : List α :=
  if n ≤ l.length then l.take n else l ++ List.replicate (n - l.length) v

/-- `ImmediateManager` from src/src/lib.rs: a growable byte buffer, a table
from id to an optional occupied byte range, and an id pool. -/
structure ImmediateManager where
  entries : List (Option URange)
  id_pool : IdPool
  bytes : List Nat
deriving Repr, DecidableEq

/-- `ImmediateManager::new`. -/
def ImmediateManager.new : ImmediateManager := ⟨[], IdPool.new, []⟩

/-- The `for range in &occupied` scan of `ImmediateManager::add`: walk the
ranges (already sorted by start), with `start_pos` the end of the previous
range; stop at the first gap with `range.start - start_pos >= size`
(wrapping subtraction).  Returns (found range, final `start_pos`). -/
def findGapLoop (size : Nat) : List URange → Nat → Option URange × Nat
  | [], start_pos => (none, start_pos)
  | r :: rest, start_pos =>
    if size ≤ usizeSub r.start start_pos then
      (some ⟨start_pos, start_pos + size⟩, start_pos)
    else findGapLoop size rest r.stop

/-- The occupied ranges of the manager, in entry order, sorted by start
(`entries.iter().flatten()` then `sort_by_key(|r| r.start)`). -/
def ImmediateManager.occupiedRanges (m : ImmediateManager) : List URange :=
  sortByLe (fun r₁ r₂ => r₁.start ≤ r₂.start) (m.entries.filterMap (fun e => e))

/-- `ImmediateManager::add(size)`: first-fit scan over the sorted occupied
ranges; if no gap fits and the space after the last range is too small,
grow the buffer to `max(len * 2, start_pos + size * 2, 64)`; allocate at
`start_pos`; draw an id from the pool and record the range at index id,
growing the entries table to `max(len * 2, idx + 1, 8)` if needed. -/
def ImmediateManager.add (m : ImmediateManager) (size : Nat) : Nat × ImmediateManager :=
  let occupied := m.occupiedRanges
  let fg := findGapLoop size occupied 0
  let range : URange :=
    match fg.1 with
    | some r => r
    | none => ⟨fg.2, fg.2 + size⟩
  let bytes :=
    match fg.1 with
    | some _ => m.bytes
    | none =>
      if usizeSub m.bytes.length fg.2 < size then
        listResize m.bytes (Nat.max (Nat.max (m.bytes.length * 2) (fg.2 + size * 2)) 64) 0
      else m.bytes
  let next := m.id_pool.get_next
  let id := next.1
  let entries :=
    if m.entries.length ≤ id then
      listResize m.entries (Nat.max (Nat.max (m.entries.length * 2) (id + 1)) 8) none
    else m.entries
  (id, { entries := entries.set id (some range), id_pool := next.2, bytes := bytes })

/-- `ImmediateManager::get(id)`: the byte slice of the live range at index
id, if any.  The Rust slice `&bytes[range]` is modelled by drop/take; the
in-bounds condition of the slice is the subject of claim C9. -/
def ImmediateManager.get (m : ImmediateManager) (id : Nat) : Option (List Nat) :=
  match m.entries[id]? with
  | some (some r) => some ((m.bytes.drop r.start).take (r.stop - r.start))
  | _ => none

/-- `ImmediateManager::remove(id)`: `entry.take()` (set the slot to None)
and, if it was occupied, free the id.  The Bool is `false` iff the
`debug_assert` inside `free` panicked. -/
def ImmediateManager.remove (m : ImmediateManager) (id : Nat) : ImmediateManager × Bool :=
  match m.entries[id]? with
  | some (some _) =>
    let entries := m.entries.set id none
    let f := m.id_pool.free id
    ({ m with entries := entries, id_pool := f.1 }, f.2)
  | _ => (m, true)

/-- `Entry<T>` from src/src/shader.rs: a (value, id) pair, ordered by id. -/
structure EntryM (V : Type) where
  val : V
  id : Nat
deriving Repr, DecidableEq

/-- `slice::binary_search_by_key` on the list of keys, restricted to the
interval `[lo, hi)`.  Rust computes `mid = lo + (hi - lo) / 2`, recursing
into `[mid+1, hi)` or `[lo, mid)`.  The interval shrinks at every step, so
a fuel of `hi - lo` suffices; fuel makes the recursion structural (and
hence kernel-reducible). -/
def binarySearchAux (keys : List Nat) (key : Nat) : Nat → Nat → Nat → Option Nat
  | 0, _, _ => none
  | fuel + 1, lo, hi =>
    if lo < hi then
      let mid := lo + (hi - lo) / 2
      match keys[mid]? with
      | some v =>
        if v < key then binarySearchAux keys key fuel (mid + 1) hi
        else if key < v then binarySearchAux keys key fuel lo mid
        else some mid
      | none => none
    else none

/-- `keys.binary_search(&key)` over the whole list: `Ok(index)` is `some`,
`Err(_)` is `none`. -/
def binarySearchByKey (keys : List Nat) (key : Nat) : Option Nat :=
  binarySearchAux keys key keys.length 0 keys.length

/-- The insertion step of `SortedVec::push`: insert the entry before the
first entry with a greater-or-equal id (binary-search insertion into a
sorted vector produces exactly the sorted-order position). -/
def insertSorted {V : Type} (e : EntryM V) : List (EntryM V) → List (EntryM V)
  | [] => [e]
  | x :: xs => if e.id ≤ x.id then e :: x :: xs else x :: insertSorted e xs

/-- `CollectionInner<T>` from src/src/shader.rs: a `SortedVec<Entry<T>>`
(kept sorted by id) plus an owned `IdPool`. -/
structure CollectionInner (V : Type) where
  data : List (EntryM V)
  id_pool : IdPool
deriving Repr, DecidableEq

/-- The empty collection. -/
def CollectionInner.empty (V : Type) : CollectionInner V := ⟨[], IdPool.new⟩

/-- The ids currently stored, in data order. -/
def CollectionInner.ids {V : Type} (c : CollectionInner V) : List Nat :=
  c.data.map EntryM.id

/-- `CollectionInner::create(val)`: draw a fresh id from the pool and push
the entry into the sorted vector.  Returns (id, updated collection). -/
def CollectionInner.create {V : Type} (c : CollectionInner V) (v : V) :
    Nat × CollectionInner V :=
  let next := c.id_pool.get_next
  (next.1, { data := insertSorted ⟨v, next.1⟩ c.data, id_pool := next.2 })

/-- `CollectionInner::delete(id)`: first return the id to the pool, then
binary-search for the entry and remove it by index.  The Bool is `false`
iff the operation panicked: either the `debug_assert` in `free` (state
unchanged) or the `expect("Value is not present")` (id already freed into
the pool, data unchanged) — the order of the two mutations is the subject
of claim C10. -/
def CollectionInner.delete {V : Type} (c : CollectionInner V) (id : Nat) :
    CollectionInner V × Bool :=
  let f := c.id_pool.free id
  if f.2 then
    match binarySearchByKey (c.data.map EntryM.id) id with
    | some index => ({ data := c.data.eraseIdx index, id_pool := f.1 }, true)
    | none => ({ data := c.data, id_pool := f.1 }, false)
  else (c, false)

/-- `CollectionInner::get_clone(id)`: binary-search and clone the stored
value; `none` models the `expect` panic on absence. -/
def CollectionInner.get_clone {V : Type} (c : CollectionInner V) (id : Nat) : Option V :=
  match binarySearchByKey (c.data.map EntryM.id) id with
  | some index => (c.data[index]?).map EntryM.val
  | none => none

/-- The shared state behind one `Managed<T>` handle and its clones: the
`InstanceCounter` value (an `Rc<Cell<u32>>`, starting at 1 in
`InstanceCounter::new`) together with the shared collection. -/
structure ManagedWorld (V : Type) where
  count : Nat
  coll : CollectionInner V
deriving Repr, DecidableEq

/-- `Managed::<T>::clone`: increment the shared counter; the clone carries
the same `instance_id` (returned unchanged as the second component). -/
def ManagedWorld.cloneHandle {V : Type} (w : ManagedWorld V) (instance_id : Nat) :
    ManagedWorld V × Nat :=
  ({ w with count := w.count + 1 }, instance_id)

/-- `Managed::<T>::drop`: decrement the shared counter; if it reached 0,
delete the entry from the collection.  Returns (new world, whether a
deletion was performed, whether the deletion succeeded without panic). -/
def ManagedWorld.dropHandle {V : Type} (w : ManagedWorld V) (instance_id : Nat) :
    ManagedWorld V × Bool × Bool :=
  let count := w.count - 1
  if count = 0 then
    let d := w.coll.delete instance_id
    (⟨count, d.1⟩, true, d.2)
  else (⟨count, w.coll⟩, false, true)

/-- Iterate `dropHandle` k times, counting the deletions performed. -/
def dropN {V : Type} : Nat → ManagedWorld V → Nat → ManagedWorld V × Nat
  | 0, w, _ => (w, 0)
  | k + 1, w, instance_id =>
    let d := w.dropHandle instance_id
    let rest := dropN k d.1 instance_id
    (rest.1, (if d.2.1 then 1 else 0) + rest.2)

/-- One operation on a `Storage<T>` (`CollectionInner`). -/
inductive StoreOp (V : Type) where
  | create : V → StoreOp V
  | delete : Nat → StoreOp V
deriving Repr, DecidableEq

/-- Run a sequence of storage operations; `none` if some delete panicked
(which under the hypotheses of the claims — deletes target live ids — does not
happen). -/
def execStore {V : Type} : CollectionInner V → List (StoreOp V) → Option (CollectionInner V)
  | c, [] => some c
  | c, .create v :: ops => execStore (c.create v).2 ops
  | c, .delete id :: ops =>
    let d := c.delete id
    if d.2 then execStore d.1 ops else none

/-- One operation on an `IdPool`. -/
inductive PoolOp where
  | next : PoolOp
  | free : Nat → PoolOp
deriving Repr, DecidableEq

/-- Run a sequence of pool operations, tracking as ghost state the list of
live ids (issued by `get_next` and not yet freed).  A `free` is admitted
only for a live id — the contract of claim C6 — and `none` reports either
a contract violation or a `debug_assert` panic. -/
def execPool : IdPool × List Nat → List PoolOp → Option (IdPool × List Nat)
  | s, [] => some s
  | (p, live), .next :: ops =>
    let n := p.get_next
    execPool (n.2, n.1 :: live) ops
  | (p, live), .free id :: ops =>
    if id ∈ live then
      let f := p.free id
      if f.2 then execPool (f.1, live.erase id) ops else none
    else none

/-!
The draw-call batching loop, from
`execute_ordered_draw_calls` in src/wgpurenderer/src/renderpass.rs.

The declarations of the draw-call record and the handle types live in the
wgpurenderer crate root, which is not present under src/ (only
renderpass.rs of that crate is).  Modelled from the spec: a draw call
references a pipeline handle, an ordered list of bind-group handles,
vertex/index buffer references (each an opaque buffer plus an optional
byte range), an instance count, and an optional reference into the
`ImmediateManager`; handles are distinguishable identities that compare
(`Eq`/`Ord`) by id.  Handles and buffers are therefore modelled as opaque
Nat identities (buffers also carry their `size()`).
-/

/-- An opaque `wgpu::Buffer`: an identity plus its `size()`. -/
structure BufferRef where
  id : Nat
  size : Nat
deriving Repr, DecidableEq

/-- `Geometry` of a draw call (vertex/index buffer references). -/
structure GeometryRec where
  index_buffer : Option BufferRef
  index_buffer_range : Option URange
  buffers : List (BufferRef × Option URange)
  count : Nat
deriving Repr, DecidableEq

/-- `ShaderData` of a draw call: optional immediate-data handle (by id)
and the ordered bind-group handles (by id). -/
structure ShaderDataRec where
  immediates : Option Nat
  bind_groups : List Nat
deriving Repr, DecidableEq

/-- `DrawCall`: pipeline handle (by id), shader data, geometry, instances. -/
structure DrawCall where
  geometry : GeometryRec
  shader_data : ShaderDataRec
  instance_count : Nat
  render_pipeline_handle : Nat
deriving Repr, DecidableEq

/-- The commands recorded on the `wgpu::RenderPass` collaborator. -/
inductive RenderCmd where
  | setPipeline (pipeline : Nat)
  | setBindGroup (slot : Nat) (bindGroup : Nat)
  | setVertexBuffer (slot : Nat) (buffer : Nat) (start stop : Nat)
  | setImmediates (bytes : List Nat)
  | setIndexBuffer (buffer : Nat) (start stop : Nat)
  | drawIndexed (count instances : Nat)
  | draw (count instances : Nat)
deriving Repr, DecidableEq

/-- Lexicographic `Ord::cmp` on id sequences (`iter().cmp(...)`). -/
def compareIdList : List Nat → List Nat → Ordering
  | [], [] => .eq
  | [], _ :: _ => .lt
  | _ :: _, [] => .gt
  | x :: xs, y :: ys => (compare x y).then (compareIdList xs ys)

/-- The sort comparator of `execute_ordered_draw_calls`: pipeline handle
first, then the bind-group handle sequence. -/
def drawCallCmp (a b : DrawCall) : Ordering :=
  (compare a.render_pipeline_handle b.render_pipeline_handle).then
    (compareIdList a.shader_data.bind_groups b.shader_data.bind_groups)

/-- `draw_calls.sort_by(...)`: stable sort under `drawCallCmp`. -/
def sortDrawCalls (calls : List DrawCall) : List DrawCall :=
  sortByLe (fun a b => match drawCallCmp a b with | .gt => false | _ => true) calls

/-- The loop state: `current_pipeline_id` and the bind-group cache
(`SmallVec::from_elem(None, 3)`). -/
structure BatchState where
  current_pipeline_id : Option Nat
  current_bind_groups : List (Option Nat)
deriving Repr, DecidableEq

/-- The negation of the emit condition
`i >= len || current[i].is_none_or(|b| *b != *bind_group)`: slot `i` is
cached (within bounds) with exactly this bind-group identity. -/
def cacheHit (cache : List (Option Nat)) (i bg : Nat) : Bool :=
  match cache[i]? with
  | some (some b) => b == bg
  | _ => false

/-- The `// 2. Set bind groups` loop: for the i-th bind group, emit a bind
unless slot i is cached with the same identity, and update the cache when
`i < len`. -/
def setBindGroupsLoop (i : Nat) (bgs : List Nat) (cache : List (Option Nat)) :
    List RenderCmd × List (Option Nat) :=
  match bgs with
  | [] => ([], cache)
  | bg :: rest =>
    if cacheHit cache i bg then setBindGroupsLoop (i + 1) rest cache
    else
      let cache := if i < cache.length then cache.set i (some bg) else cache
      let r := setBindGroupsLoop (i + 1) rest cache
      (.setBindGroup i bg :: r.1, r.2)

/-- The `// 3. Set vertex/index buffers` loop: always rebind, with the
range defaulting to `0..buffer.size()`. -/
def setVertexBuffersLoop (i : Nat) : List (BufferRef × Option URange) → List RenderCmd
  | [] => []
  | (buf, range) :: rest =>
    let r : URange := match range with | some r => r | none => ⟨0, buf.size⟩
    .setVertexBuffer i buf.id r.start r.stop :: setVertexBuffersLoop (i + 1) rest

/-- The body of the `for draw_call in draw_calls` loop: pipeline bind (with
full cache invalidation) only on pipeline change, cached bind-group binds,
unconditional vertex-buffer binds, best-effort immediate data, then exactly
one draw command (indexed iff an index buffer is present). -/
def drawCallStep (im : ImmediateManager) (s : BatchState) (d : DrawCall) :
    BatchState × List RenderCmd :=
  let p :=
    if s.current_pipeline_id = some d.render_pipeline_handle then
      (([] : List RenderCmd), s)
    else
      ([RenderCmd.setPipeline d.render_pipeline_handle],
       ⟨some d.render_pipeline_handle, s.current_bind_groups.map (fun _ => none)⟩)
  let b := setBindGroupsLoop 0 d.shader_data.bind_groups p.2.current_bind_groups
  let vb := setVertexBuffersLoop 0 d.geometry.buffers
  let immCmds : List RenderCmd :=
    match d.shader_data.immediates with
    | some h =>
      match im.get h with
      | some bytes => [RenderCmd.setImmediates bytes]
      | none => []
    | none => []
  let drawCmds : List RenderCmd :=
    match d.geometry.index_buffer with
    | some ib =>
      let r : URange :=
        match d.geometry.index_buffer_range with
        | some r => r
        | none => ⟨0, ib.size⟩
      [RenderCmd.setIndexBuffer ib.id r.start r.stop,
       RenderCmd.drawIndexed d.geometry.count d.instance_count]
    | none => [RenderCmd.draw d.geometry.count d.instance_count]
  (⟨p.2.current_pipeline_id, b.2⟩, p.1 ++ b.1 ++ vb ++ immCmds ++ drawCmds)

/-- The emit loop over the (sorted) draw calls. -/
def emitLoop (im : ImmediateManager) (s : BatchState) : List DrawCall → List RenderCmd
  | [] => []
  | d :: rest =>
    let r := drawCallStep im s d
    r.2 ++ emitLoop im r.1 rest

/-- `execute_ordered_draw_calls`: sort, then emit with an empty pipeline /
bind-group cache state. -/
def execute_ordered_draw_calls (im : ImmediateManager) (calls : List DrawCall) :
    List RenderCmd :=
  emitLoop im ⟨none, List.replicate 3 none⟩ (sortDrawCalls calls)

/-- Count the commands satisfying a predicate. -/
def countCmds (p : RenderCmd → Bool) (cmds : List RenderCmd) : Nat :=
  (cmds.filter p).length

/-- Is the command a pipeline bind. -/
def isSetPipeline : RenderCmd → Bool
  | .setPipeline _ => true
  | _ => false

/-- Is the command a bind-group bind at the given slot. -/
def isSetBindGroupAt (slot : Nat) : RenderCmd → Bool
  | .setBindGroup s _ => s == slot
  | _ => false

/-- Is the command a draw (indexed or not). -/
def isDrawCommand : RenderCmd → Bool
  | .draw _ _ => true
  | .drawIndexed _ _ => true
  | _ => false

/-- Is the command an indexed draw. -/
def isDrawIndexed : RenderCmd → Bool
  | .drawIndexed _ _ => true
  | _ => false

/-- Is the command an immediate-data upload. -/
def isSetImmediates : RenderCmd → Bool
  | .setImmediates _ => true
  | _ => false

/-- The bind-group cache against which the slot decisions of one draw call
are made: the incoming cache, invalidated wholesale if the pipeline
changes. -/
def effectiveCache (s : BatchState) (d : DrawCall) : List (Option Nat) :=
  if s.current_pipeline_id = some d.render_pipeline_handle then s.current_bind_groups
  else s.current_bind_groups.map (fun _ => none)

/-- Strong separation of a range list from a starting position: every range
starts at or after the given position, is well-formed, and every later
range starts at or after the end of the previous one (sorted and pairwise
disjoint).  Bool so that hypotheses evaluate on concrete inputs. -/
def wellSeparatedFrom : Nat → List URange → Bool
  | _, [] => true
  | sp, r :: rest => sp ≤ r.start && r.start ≤ r.stop && wellSeparatedFrom r.stop rest

/-- A block `[q, q+size)` fits the range list: it overlaps none of them. -/
def fitsAt (q size : Nat) (rs : List URange) : Prop :=
  ∀ r ∈ rs, q + size ≤ r.start ∨ r.stop ≤ q

/-- The allocation start chosen by the scan of `ImmediateManager::add`:
the start of the found gap, or the end of the used region. -/
def chosenStart (size : Nat) (rs : List URange) (sp : Nat) : Nat :=
  match findGapLoop size rs sp with
  | (some r, _) => r.start
  | (none, spf) => spf

/-- The byte range recorded by `ImmediateManager::add`: the found gap, or a
fresh block at the end of the used region. -/
def allocRangeOf (m : ImmediateManager) (size : Nat) : URange :=
  match findGapLoop size m.occupiedRanges 0 with
  | (some r, _) => r
  | (none, spf) => ⟨spf, spf + size⟩

/-- Two byte ranges overlap (share at least one byte position). -/
def rangesOverlap (r₁ r₂ : URange) : Bool :=
  Nat.max r₁.start r₂.start < Nat.min r₁.stop r₂.stop

/-- The C9 failing trace: add(5), add(1), add(4), remove the middle id,
add(0) — which lands at [0, 0) because the zero-size request fits the
zero-width gap before the first range — then add(3).  At the last add the
scan walks [0,5), [0,0), [6,10): after [0,5) the position is 5, and the
subtraction 0 - 5 for the zero range underflows (panics in a debug build,
wraps in release), so the scan "finds" a gap at 5 and records [5, 8),
overlapping [6, 10). -/
def immBugTrace : ImmediateManager :=
  (((((((ImmediateManager.new.add 5).2.add 1).2.add 4).2.remove 1).1.add 0).2).add 3).2

/-!  Helper lemmas. -/

theorem usizeSub_eq_sub {a b : Nat} (hba : b ≤ a) (ha : a < USIZE) :
    usizeSub a b = a - b := by
  have hb : b % USIZE = b := Nat.mod_eq_of_lt (lt_of_le_of_lt hba ha)
  unfold usizeSub
  rw [hb]
  have h1 : a + USIZE - b = (a - b) + USIZE := by omega
  rw [h1, Nat.add_mod_right]
  exact Nat.mod_eq_of_lt (by omega)

theorem length_listResize {α : Type} (l : List α) (n : Nat) (v : α) :
    (listResize l n v).length = n := by
  unfold listResize
  split
  · simp
    omega
  · simp
    omega

theorem length_insertLe {α : Type} (le : α → α → Bool) (a : α) (l : List α) :
    (insertLe le a l).length = l.length + 1 := by
  induction l with
  | nil => rfl
  | cons b t ih =>
    unfold insertLe
    split
    · simp
    · simp [ih]

theorem length_sortByLe {α : Type} (le : α → α → Bool) (l : List α) :
    (sortByLe le l).length = l.length := by
  induction l with
  | nil => rfl
  | cons a t ih =>
    unfold sortByLe
    rw [length_insertLe, ih]
    simp

theorem eraseIdx_map {α β : Type} (f : α → β) (l : List α) (i : Nat) :
    (l.map f).eraseIdx i = (l.eraseIdx i).map f := by
  rw [List.eraseIdx_eq_take_drop_succ, List.eraseIdx_eq_take_drop_succ,
    List.map_append, List.map_take, List.map_drop]

/-- Indices-based access to a `Pairwise` list. -/
theorem pairwise_rel_of_getElem {α : Type} {R : α → α → Prop} {l : List α}
    (h : List.Pairwise R l) {i j : Nat} (hij : i < j) (hj : j < l.length) :
    R l[i] l[j] := by
  rw [List.pairwise_iff_get] at h
  exact h ⟨i, lt_trans hij hj⟩ ⟨j, hj⟩ hij

/-- In a strictly sorted list, the element at index `i` does not occur in
the list with index `i` erased. -/
theorem not_mem_eraseIdx_of_pairwise_lt {keys : List Nat} {i : Nat} {a : Nat}
    (hs : List.Pairwise (· < ·) keys) (hi : keys[i]? = some a) :
    a ∉ keys.eraseIdx i := by
  intro hmem
  rw [List.mem_eraseIdx_iff_getElem?] at hmem
  obtain ⟨j, hji, hj⟩ := hmem
  rw [List.getElem?_eq_some] at hi hj
  obtain ⟨hilen, hie⟩ := hi
  obtain ⟨hjlen, hje⟩ := hj
  rcases Nat.lt_or_ge j i with h | h
  · have := pairwise_rel_of_getElem hs h hilen
    omega
  · have hlt : i < j := by omega
    have := pairwise_rel_of_getElem hs hlt hjlen
    omega

/-!  Binary search correctness. -/

theorem binarySearchAux_sound (keys : List Nat) (key : Nat) :
    ∀ (fuel lo hi i : Nat), binarySearchAux keys key fuel lo hi = some i →
      lo ≤ i ∧ i < hi ∧ keys[i]? = some key := by
  intro fuel
  induction fuel with
  | zero => intro lo hi i h; simp [binarySearchAux] at h
  | succ fuel ih =>
    intro lo hi i h
    unfold binarySearchAux at h
    by_cases hlt : lo < hi
    · simp only [hlt, if_true] at h
      set mid := lo + (hi - lo) / 2 with hmid
      rcases hk : keys[mid]? with _ | v
      · rw [hk] at h; exact absurd h (by simp)
      · rw [hk] at h
        by_cases h1 : v < key
        · simp only [h1, if_true] at h
          have := ih (mid + 1) hi i h
          exact ⟨by omega, this.2.1, this.2.2⟩
        · by_cases h2 : key < v
          · simp only [h1, h2, if_false, if_true] at h
            have := ih lo mid i h
            refine ⟨by omega, by omega, this.2.2⟩
          · simp only [h1, h2, if_false] at h
            have hvk : v = key := by omega
            have : mid = i := by exact Option.some_injective _ h
            subst this
            refine ⟨by omega, by omega, by rw [hk, hvk]⟩
    · simp [hlt] at h

theorem binarySearchAux_complete (keys : List Nat) (key : Nat)
    (hs : List.Pairwise (· ≤ ·) keys) :
    ∀ (fuel lo hi j : Nat), hi ≤ keys.length → hi - lo ≤ fuel →
      lo ≤ j → j < hi → keys[j]? = some key →
      (binarySearchAux keys key fuel lo hi).isSome := by
  intro fuel
  induction fuel with
  | zero => intro lo hi j hhi hfuel hlo hj hkey; omega
  | succ fuel ih =>
    intro lo hi j hhi hfuel hlo hj hkey
    have hlt : lo < hi := by omega
    unfold binarySearchAux
    simp only [hlt, if_true]
    set mid := lo + (hi - lo) / 2 with hmid
    have hmidlt : mid < hi := by omega
    have hmidlen : mid < keys.length := by omega
    rcases hk : keys[mid]? with _ | v
    · rw [List.getElem?_eq_getElem hmidlen] at hk
      exact absurd hk (by simp)
    · have hv : keys[mid] = v := by
        rw [List.getElem?_eq_getElem hmidlen] at hk
        exact Option.some_injective _ hk
      have hjlen : j < keys.length := by omega
      have hjv : keys[j] = key := by
        rw [List.getElem?_eq_getElem hjlen] at hkey
        exact Option.some_injective _ hkey
      by_cases h1 : v < key
      · simp only [h1, if_true]
        -- key lives strictly right of mid
        have hjmid : mid < j := by
          by_contra hc
          push_neg at hc
          rcases Nat.lt_or_ge j mid with hjm | hjm
          · have := pairwise_rel_of_getElem hs hjm hmidlen
            omega
          · have : j = mid := by omega
            subst this
            omega
        exact ih (mid + 1) hi j hhi (by omega) (by omega) hj hkey
      · by_cases h2 : key < v
        · simp only [h1, h2, if_false, if_true]
          have hjmid : j < mid := by
            by_contra hc
            push_neg at hc
            rcases Nat.lt_or_ge mid j with hjm | hjm
            · have := pairwise_rel_of_getElem hs hjm hjlen
              omega
            · have : j = mid := by omega
              subst this
              omega
          exact ih lo mid j (by omega) (by omega) hlo hjmid hkey
        · simp [h1, h2]

theorem binarySearchByKey_isSome_iff (keys : List Nat) (key : Nat)
    (hs : List.Pairwise (· ≤ ·) keys) :
    (binarySearchByKey keys key).isSome ↔ key ∈ keys := by
  constructor
  · intro h
    rw [Option.isSome_iff_exists] at h
    obtain ⟨i, hi⟩ := h
    have := binarySearchAux_sound keys key keys.length 0 keys.length i hi
    rw [List.getElem?_eq_some] at this
    obtain ⟨hlen, he⟩ := this.2.2
    exact he ▸ List.getElem_mem hlen
  · intro h
    obtain ⟨j, hjlen, hje⟩ := List.getElem_of_mem h
    exact binarySearchAux_complete keys key hs keys.length 0 keys.length j
      (le_refl _) (by omega) (Nat.zero_le _) hjlen
      (by rw [List.getElem?_eq_getElem hjlen, hje])

theorem binarySearchByKey_sound {keys : List Nat} {key i : Nat}
    (h : binarySearchByKey keys key = some i) : keys[i]? = some key :=
  (binarySearchAux_sound keys key keys.length 0 keys.length i h).2.2

/-!  Sorted insertion (`SortedVec::push`). -/

theorem mem_ids_insertSorted {V : Type} (e : EntryM V) (l : List (EntryM V)) (x : Nat) :
    x ∈ (insertSorted e l).map EntryM.id ↔ x = e.id ∨ x ∈ l.map EntryM.id := by
  induction l with
  | nil => simp [insertSorted]
  | cons y t ih =>
    unfold insertSorted
    split
    · simp only [List.map_cons, List.mem_cons]
    · simp only [List.map_cons, List.mem_cons] at *
      tauto

theorem pairwise_ids_insertSorted {V : Type} (e : EntryM V) (l : List (EntryM V))
    (hs : List.Pairwise (· < ·) (l.map EntryM.id))
    (hfresh : e.id ∉ l.map EntryM.id) :
    List.Pairwise (· < ·) ((insertSorted e l).map EntryM.id) := by
  induction l with
  | nil => simp [insertSorted]
  | cons y t ih =>
    have hshead := (List.pairwise_cons.mp hs).1
    have hstail := (List.pairwise_cons.mp hs).2
    simp only [List.map_cons, List.mem_cons] at hfresh
    push_neg at hfresh
    unfold insertSorted
    split
    · -- e goes right before y
      rename_i hle
      rw [List.map_cons]
      refine List.pairwise_cons.mpr ⟨?_, hs⟩
      intro b hb
      rw [List.map_cons, List.mem_cons] at hb
      rcases hb with hb | hb
      · subst hb
        have := hfresh.1
        omega
      · have := hshead b hb
        omega
    · -- e goes further right
      rename_i hgt
      push_neg at hgt
      rw [List.map_cons]
      refine List.pairwise_cons.mpr ⟨?_, ih hstail hfresh.2⟩
      intro b hb
      rw [mem_ids_insertSorted] at hb
      rcases hb with hb | hb
      · subst hb; omega
      · exact hshead b hb

/-!  IdPool invariant (claim C6 machinery). -/

/-- The pool invariant, relative to the ghost list of live ids. -/
def PoolInv (p : IdPool) (live : List Nat) : Prop :=
  (∀ i ∈ live, i < p.current) ∧ (∀ i ∈ p.available, i < p.current) ∧
  (∀ i ∈ live, i ∉ p.available) ∧ live.Nodup ∧ p.available.Nodup

theorem poolInv_get_next {p : IdPool} {live : List Nat} (h : PoolInv p live) :
    PoolInv (p.get_next).2 ((p.get_next).1 :: live) := by
  obtain ⟨h1, h2, h3, h4, h5⟩ := h
  rcases hav : p.available with _ | ⟨hd, t⟩
  · have hg : p.get_next = (p.current, { current := p.current + 1, available := [] }) := by
      simp [IdPool.get_next, hav]
    rw [hg]
    unfold PoolInv
    dsimp only
    refine ⟨?_, ?_, ?_, ?_, ?_⟩
    · intro i hi
      simp only [List.mem_cons] at hi
      rcases hi with hi | hi
      · omega
      · have := h1 i hi; omega
    · intro i hi; simp at hi
    · intro i hi hmem; simp at hmem
    · refine List.nodup_cons.mpr ⟨?_, h4⟩
      intro hmem
      have := h1 _ hmem
      omega
    · exact List.nodup_nil
  · have hg : p.get_next = (hd, { p with available := t }) := by
      simp [IdPool.get_next, hav]
    rw [hg]
    unfold PoolInv
    dsimp only
    rw [hav] at h2 h3 h5
    have h5' := List.nodup_cons.mp h5
    refine ⟨?_, ?_, ?_, ?_, ?_⟩
    · intro i hi
      simp only [List.mem_cons] at hi
      rcases hi with hi | hi
      · subst hi; exact h2 _ (List.mem_cons_self _ _)
      · exact h1 i hi
    · intro i hi
      exact h2 i (List.mem_cons_of_mem _ hi)
    · intro i hi
      simp only [List.mem_cons] at hi
      rcases hi with hi | hi
      · subst hi; exact h5'.1
      · intro hmem
        exact h3 i hi (List.mem_cons_of_mem _ hmem)
    · refine List.nodup_cons.mpr ⟨?_, h4⟩
      intro hmem
      exact h3 _ hmem (List.mem_cons_self _ _)
    · exact h5'.2

theorem poolInv_free {p : IdPool} {live : List Nat} {id : Nat} (h : PoolInv p live)
    (hid : id ∈ live) :
    (p.free id).2 = true ∧
      PoolInv (p.free id).1 (live.erase id) := by
  obtain ⟨h1, h2, h3, h4, h5⟩ := h
  have hcur : id < p.current := h1 _ hid
  have hfree : p.free id = ({ p with available := id :: p.available }, true) := by
    unfold IdPool.free
    rw [if_pos hcur]
  rw [hfree]
  refine ⟨rfl, ?_, ?_, ?_, ?_, ?_⟩
  · intro i hi
    exact h1 i (List.mem_of_mem_erase hi)
  · intro i hi
    simp only [List.mem_cons] at hi
    rcases hi with hi | hi
    · subst hi; exact hcur
    · exact h2 i hi
  · intro i hi
    have hi' := (List.Nodup.mem_erase_iff h4).mp hi
    intro hmem
    simp only [List.mem_cons] at hmem
    rcases hmem with hmem | hmem
    · exact hi'.1 hmem
    · exact h3 i hi'.2 hmem
  · exact h4.erase _
  · refine List.nodup_cons.mpr ⟨?_, h5⟩
    exact h3 _ hid

theorem execPool_inv : ∀ (ops : List PoolOp) (s s' : IdPool × List Nat),
    PoolInv s.1 s.2 → execPool s ops = some s' → PoolInv s'.1 s'.2 := by
  intro ops
  induction ops with
  | nil =>
    intro s s' hinv hex
    simp only [execPool] at hex
    cases hex
    exact hinv
  | cons op rest ih =>
    intro s s' hinv hex
    obtain ⟨p, live⟩ := s
    cases op with
    | next =>
      simp only [execPool] at hex
      exact ih _ _ (poolInv_get_next hinv) hex
    | free id =>
      simp only [execPool] at hex
      by_cases hmem : id ∈ live
      · simp only [hmem, if_pos] at hex
        obtain ⟨hok, hinv'⟩ := poolInv_free hinv hmem
        rw [hok] at hex
        simp only [if_pos] at hex
        exact ih _ _ hinv' hex
      · simp [hmem] at hex

theorem execPool_append (l₁ l₂ : List PoolOp) : ∀ (s : IdPool × List Nat),
    execPool s (l₁ ++ l₂) = (execPool s l₁).bind (fun s' => execPool s' l₂) := by
  induction l₁ with
  | nil => intro s; simp [execPool]
  | cons op rest ih =>
    intro s
    obtain ⟨p, live⟩ := s
    cases op with
    | next =>
      simp only [List.cons_append, execPool]
      exact ih _
    | free id =>
      simp only [List.cons_append, execPool]
      by_cases hmem : id ∈ live
      · simp only [hmem, if_pos]
        by_cases hok : (p.free id).2
        · simp only [hok, if_pos]
          exact ih _
        · simp only [Bool.not_eq_true] at hok
          simp [hok]
      · simp [hmem]

/-!  Storage invariant (claim C5 machinery). -/

/-- The storage invariant: data strictly sorted by id, every stored or
freed id below the counter, stored ids disjoint from the free stack, and
the free stack duplicate-free. -/
def StoreInv {V : Type} (c : CollectionInner V) : Prop :=
  List.Pairwise (· < ·) c.ids ∧
  (∀ i ∈ c.ids, i < c.id_pool.current) ∧
  (∀ i ∈ c.id_pool.available, i < c.id_pool.current) ∧
  (∀ i ∈ c.ids, i ∉ c.id_pool.available) ∧
  c.id_pool.available.Nodup

theorem storeInv_empty (V : Type) : StoreInv (CollectionInner.empty V) := by
  refine ⟨?_, ?_, ?_, ?_, ?_⟩ <;> simp [CollectionInner.empty, CollectionInner.ids, IdPool.new]

theorem ids_mk {V : Type} (data : List (EntryM V)) (pool : IdPool) :
    (CollectionInner.mk data pool).ids = data.map EntryM.id := rfl

theorem create_eq {V : Type} (c : CollectionInner V) (v : V) :
    c.create v = ((c.id_pool.get_next).1,
      ⟨insertSorted ⟨v, (c.id_pool.get_next).1⟩ c.data, (c.id_pool.get_next).2⟩) := rfl

theorem ids_create {V : Type} (c : CollectionInner V) (v : V) (x : Nat) :
    x ∈ ((c.create v).2).ids ↔ x = (c.id_pool.get_next).1 ∨ x ∈ c.ids := by
  rw [create_eq]
  exact mem_ids_insertSorted _ _ _

theorem storeInv_create {V : Type} {c : CollectionInner V} (h : StoreInv c) (v : V) :
    StoreInv ((c.create v).2) := by
  obtain ⟨h1, h2, h3, h4, h5⟩ := h
  rw [create_eq]
  unfold StoreInv
  dsimp only
  -- facts about the id drawn from the pool
  have hfresh : (c.id_pool.get_next).1 ∉ c.ids := by
    rcases hav : c.id_pool.available with _ | ⟨hd, t⟩
    · have hg : (c.id_pool.get_next).1 = c.id_pool.current := by
        simp [IdPool.get_next, hav]
      rw [hg]
      intro hmem
      have := h2 _ hmem
      omega
    · have hg : (c.id_pool.get_next).1 = hd := by
        simp [IdPool.get_next, hav]
      rw [hg]
      intro hmem
      exact h4 _ hmem (by rw [hav]; exact List.mem_cons_self _ _)
  rcases hav : c.id_pool.available with _ | ⟨hd, t⟩
  · have hg : c.id_pool.get_next =
        (c.id_pool.current, { current := c.id_pool.current + 1, available := [] }) := by
      simp [IdPool.get_next, hav]
    rw [hg] at hfresh ⊢
    dsimp only
    refine ⟨?_, ?_, ?_, ?_, ?_⟩
    · rw [ids_mk]
      exact pairwise_ids_insertSorted _ _ h1 hfresh
    · intro i hi
      rw [ids_mk, mem_ids_insertSorted] at hi
      dsimp only at hi
      rcases hi with hi | hi
      · omega
      · have := h2 i hi
        omega
    · intro i hi
      simp at hi
    · intro i _
      simp
    · exact List.nodup_nil
  · have hg : c.id_pool.get_next = (hd, { c.id_pool with available := t }) := by
      simp [IdPool.get_next, hav]
    have hhd : hd ∈ c.id_pool.available := by rw [hav]; exact List.mem_cons_self _ _
    have h5' := by rw [hav] at h5; exact List.nodup_cons.mp h5
    rw [hg] at hfresh ⊢
    dsimp only
    refine ⟨?_, ?_, ?_, ?_, ?_⟩
    · rw [ids_mk]
      exact pairwise_ids_insertSorted _ _ h1 hfresh
    · intro i hi
      rw [ids_mk, mem_ids_insertSorted] at hi
      dsimp only at hi
      rcases hi with hi | hi
      · subst hi; exact h3 _ hhd
      · exact h2 i hi
    · intro i hi
      exact h3 i (by rw [hav]; exact List.mem_cons_of_mem _ hi)
    · intro i hi
      rw [ids_mk, mem_ids_insertSorted] at hi
      dsimp only at hi
      intro hmem
      rcases hi with hi | hi
      · subst hi
        exact h5'.1 hmem
      · exact h4 i hi (by rw [hav]; exact List.mem_cons_of_mem _ hmem)
    · exact h5'.2

theorem delete_found {V : Type} {c : CollectionInner V} {id index : Nat}
    (hcur : id < c.id_pool.current)
    (hfound : binarySearchByKey (c.data.map EntryM.id) id = some index) :
    c.delete id =
      (⟨c.data.eraseIdx index,
        { c.id_pool with available := id :: c.id_pool.available }⟩, true) := by
  unfold CollectionInner.delete IdPool.free
  rw [if_pos hcur]
  dsimp only
  rw [hfound]
  simp

theorem storeInv_delete {V : Type} {c : CollectionInner V} {id : Nat}
    (h : StoreInv c) (hmem : id ∈ c.ids) :
    (c.delete id).2 = true ∧ StoreInv (c.delete id).1 ∧ id ∉ ((c.delete id).1).ids ∧
      id ∈ ((c.delete id).1).id_pool.available := by
  obtain ⟨h1, h2, h3, h4, h5⟩ := h
  have hcur : id < c.id_pool.current := h2 _ hmem
  have hle : List.Pairwise (· ≤ ·) c.ids := h1.imp le_of_lt
  have hsome : (binarySearchByKey c.ids id).isSome := by
    rw [binarySearchByKey_isSome_iff _ _ hle]
    exact hmem
  rw [Option.isSome_iff_exists] at hsome
  obtain ⟨index, hfound⟩ := hsome
  have hfound' : binarySearchByKey (c.data.map EntryM.id) id = some index := hfound
  have hidx : c.ids[index]? = some id := binarySearchByKey_sound hfound
  rw [delete_found hcur hfound']
  dsimp only
  rw [ids_mk, ← eraseIdx_map]
  have hnotmem : id ∉ c.ids.eraseIdx index :=
    not_mem_eraseIdx_of_pairwise_lt h1 hidx
  have hsub : (c.ids.eraseIdx index).Sublist c.ids := List.eraseIdx_sublist _ _
  refine ⟨rfl, ⟨?_, ?_, ?_, ?_, ?_⟩, ?_, ?_⟩
  · rw [ids_mk, ← eraseIdx_map]
    exact h1.sublist hsub
  · intro i hi
    rw [ids_mk, ← eraseIdx_map] at hi
    exact h2 i (hsub.mem hi)
  · intro i hi
    dsimp only at hi
    simp only [List.mem_cons] at hi
    rcases hi with hi | hi
    · subst hi; exact hcur
    · exact h3 i hi
  · intro i hi
    rw [ids_mk, ← eraseIdx_map] at hi
    dsimp only
    simp only [List.mem_cons]
    push_neg
    constructor
    · intro he
      subst he
      exact hnotmem hi
    · exact h4 i (hsub.mem hi)
  · dsimp only
    refine List.nodup_cons.mpr ⟨?_, h5⟩
    exact h4 _ hmem
  · exact hnotmem
  · dsimp only
    exact List.mem_cons_self _ _

theorem execStore_inv {V : Type} : ∀ (ops : List (StoreOp V)) (c c' : CollectionInner V),
    StoreInv c → execStore c ops = some c' → StoreInv c' := by
  intro ops
  induction ops with
  | nil =>
    intro c c' hinv hex
    simp only [execStore] at hex
    cases hex
    exact hinv
  | cons op rest ih =>
    intro c c' hinv hex
    cases op with
    | create v =>
      simp only [execStore] at hex
      exact ih _ _ (storeInv_create hinv v) hex
    | delete id =>
      simp only [execStore] at hex
      by_cases hok : (c.delete id).2
      · simp only [hok, if_pos] at hex
        -- a successful delete means the searched id was present
        have hmem : id ∈ c.ids := by
          by_contra hno
          obtain ⟨_, h2, _, _, _⟩ := hinv
          unfold CollectionInner.delete at hok
          dsimp only at hok
          rcases hfr : (c.id_pool.free id).2 with _ | _
          · rw [hfr] at hok
            simp at hok
          · have hsearch : binarySearchByKey (c.data.map EntryM.id) id = none := by
              rcases hs : binarySearchByKey (c.data.map EntryM.id) id with _ | i
              · rfl
              · have := binarySearchByKey_sound hs
                rw [List.getElem?_eq_some] at this
                obtain ⟨hlen, he⟩ := this
                exact absurd (he ▸ List.getElem_mem hlen) hno
            rw [hfr] at hok
            simp only [if_pos] at hok
            rw [hsearch] at hok
            simp at hok
        obtain ⟨_, hinv', _, _⟩ := storeInv_delete hinv hmem
        exact ih _ _ hinv' hex
      · simp only [Bool.not_eq_true] at hok
        simp [hok] at hex

/-!  Managed handle drops (claim C4 machinery). -/

theorem dropN_lt {V : Type} (instance_id : Nat) :
    ∀ (k n : Nat) (c : CollectionInner V), k ≤ n →
      dropN k ⟨n + 1, c⟩ instance_id = (⟨n + 1 - k, c⟩, 0) := by
  intro k
  induction k with
  | zero => intro n c _; rfl
  | succ k ih =>
    intro n c hk
    have hn : 1 ≤ n := by omega
    unfold dropN ManagedWorld.dropHandle
    dsimp only
    rw [if_neg (by omega)]
    dsimp only
    have hne : n + 1 - 1 = (n - 1) + 1 := by omega
    rw [hne, ih (n - 1) c (by omega)]
    dsimp only
    congr 1
    congr 1
    omega

theorem dropN_full {V : Type} (instance_id : Nat) :
    ∀ (N : Nat) (c : CollectionInner V),
      dropN (N + 1) ⟨N + 1, c⟩ instance_id =
        (⟨0, (c.delete instance_id).1⟩, 1) := by
  intro N
  induction N with
  | zero =>
    intro c
    unfold dropN ManagedWorld.dropHandle
    dsimp only
    rw [if_pos rfl]
    rfl
  | succ N ih =>
    intro c
    conv_lhs => rw [dropN]
    unfold ManagedWorld.dropHandle
    dsimp only
    rw [if_neg (by omega)]
    dsimp only
    have he : N + 1 + 1 - 1 = N + 1 := by omega
    rw [he, ih c]
    simp

/-!  First-fit scan (claim C3 machinery). -/

theorem wellSeparatedFrom_cons {sp : Nat} {r : URange} {rest : List URange} :
    wellSeparatedFrom sp (r :: rest) = true ↔
      sp ≤ r.start ∧ r.start ≤ r.stop ∧ wellSeparatedFrom r.stop rest = true := by
  show ((sp ≤ r.start : Bool) && (r.start ≤ r.stop : Bool) &&
    wellSeparatedFrom r.stop rest) = true ↔ _
  simp [Bool.and_eq_true, decide_eq_true_eq, and_assoc]

theorem wellSeparatedFrom_start_ge : ∀ (rs : List URange) (sp : Nat),
    wellSeparatedFrom sp rs = true → ∀ r ∈ rs, sp ≤ r.start := by
  intro rs
  induction rs with
  | nil => intro sp _ r hr; simp at hr
  | cons r rest ih =>
    intro sp hws x hx
    rw [wellSeparatedFrom_cons] at hws
    rcases List.mem_cons.mp hx with hx | hx
    · subst hx; exact hws.1
    · have := ih r.stop hws.2.2 x hx
      omega

theorem findGapLoop_some_shape (size : Nat) : ∀ (rs : List URange) (sp : Nat)
    (r : URange) (sp₂ : Nat),
    findGapLoop size rs sp = (some r, sp₂) → r.stop = r.start + size := by
  intro rs
  induction rs with
  | nil => intro sp r sp₂ h; simp [findGapLoop] at h
  | cons x rest ih =>
    intro sp r sp₂ h
    unfold findGapLoop at h
    by_cases hc : size ≤ usizeSub x.start sp
    · rw [if_pos hc] at h
      obtain ⟨h1, _⟩ := Prod.mk.injEq .. ▸ h
      cases h
      rfl
    · rw [if_neg hc] at h
      exact ih _ _ _ h

/-- First-fit characterization of the scan: under well-separation the
chosen start is at or after the scan origin, the chosen block overlaps no
occupied range, and every earlier candidate start would overlap one —
i.e. the scan reserves the first gap that is large enough. -/
theorem findGapLoop_first_fit (size : Nat) : ∀ (rs : List URange) (sp : Nat),
    wellSeparatedFrom sp rs = true → sp < USIZE → (∀ r ∈ rs, r.stop < USIZE) →
    sp ≤ chosenStart size rs sp ∧ fitsAt (chosenStart size rs sp) size rs ∧
      ∀ q, sp ≤ q → q < chosenStart size rs sp → ¬ fitsAt q size rs := by
  intro rs
  induction rs with
  | nil =>
    intro sp _ _ _
    have hc : chosenStart size [] sp = sp := rfl
    rw [hc]
    refine ⟨le_refl _, ?_, ?_⟩
    · intro r hr; simp at hr
    · intro q hq hlt; omega
  | cons r rest ih =>
    intro sp hws hsp hbound
    rw [wellSeparatedFrom_cons] at hws
    obtain ⟨h1, h2, h3⟩ := hws
    have hrstop : r.stop < USIZE := hbound r (List.mem_cons_self _ _)
    have hrstart : r.start < USIZE := by omega
    have hsub : usizeSub r.start sp = r.start - sp := usizeSub_eq_sub h1 hrstart
    by_cases hfit : size ≤ usizeSub r.start sp
    · -- the gap before r is large enough: allocate at sp
      have hc : chosenStart size (r :: rest) sp = sp := by
        unfold chosenStart findGapLoop
        rw [if_pos hfit]
      rw [hc]
      rw [hsub] at hfit
      refine ⟨le_refl _, ?_, ?_⟩
      · intro x hx
        rcases List.mem_cons.mp hx with hx | hx
        · subst hx
          left
          omega
        · left
          have := wellSeparatedFrom_start_ge rest r.stop h3 x hx
          omega
      · intro q hq hlt; omega
    · -- gap too small: the scan moves past r
      have hc : chosenStart size (r :: rest) sp = chosenStart size rest r.stop := by
        unfold chosenStart
        conv_lhs => rw [findGapLoop]
        rw [if_neg hfit]
      rw [hc]
      rw [hsub] at hfit
      push_neg at hfit
      have hb' : ∀ x ∈ rest, x.stop < USIZE := fun x hx =>
        hbound x (List.mem_cons_of_mem _ hx)
      obtain ⟨ihe, ihfits, ihmin⟩ := ih r.stop h3 hrstop hb'
      refine ⟨by omega, ?_, ?_⟩
      · intro x hx
        rcases List.mem_cons.mp hx with hx | hx
        · subst hx
          right
          omega
        · exact ihfits x hx
      · intro q hq hlt hfits
        by_cases hq' : r.stop ≤ q
        · exact ihmin q hq' hlt (fun x hx => hfits x (List.mem_cons_of_mem _ hx))
        · -- q lands inside or too close before r
          rcases hfits r (List.mem_cons_self _ _) with hcase | hcase
          · omega
          · omega

/-!  `ImmediateManager::add` placement and growth. -/

theorem add_id_eq (m : ImmediateManager) (size : Nat) :
    (m.add size).1 = (m.id_pool.get_next).1 := rfl

theorem set_entry_lookup (entries : List (Option URange)) (id : Nat) (range : URange) :
    ((if entries.length ≤ id then
        listResize entries (Nat.max (Nat.max (entries.length * 2) (id + 1)) 8) none
      else entries).set id (some range))[id]? = some (some range) := by
  by_cases hlen : entries.length ≤ id
  · rw [if_pos hlen]
    refine List.getElem?_set_self ?_
    rw [length_listResize]
    exact Nat.lt_of_lt_of_le (Nat.lt_succ_self id)
      (le_trans (Nat.le_max_right _ _) (Nat.le_max_left _ _))
  · rw [if_neg hlen]
    push_neg at hlen
    exact List.getElem?_set_self (by omega)

theorem add_sets_entry (m : ImmediateManager) (size : Nat) :
    ((m.add size).2).entries[(m.add size).1]? = some (some (allocRangeOf m size)) := by
  unfold ImmediateManager.add allocRangeOf
  dsimp only
  rcases hf : findGapLoop size m.occupiedRanges 0 with ⟨o, sp⟩
  rcases o with _ | r
  · dsimp only
    exact set_entry_lookup m.entries (m.id_pool.get_next).1 ⟨sp, sp + size⟩
  · dsimp only
    exact set_entry_lookup m.entries (m.id_pool.get_next).1 r

theorem add_bytes_grow (m : ImmediateManager) (size sp : Nat)
    (hnone : findGapLoop size m.occupiedRanges 0 = (none, sp))
    (hlack : usizeSub m.bytes.length sp < size) :
    ((m.add size).2).bytes.length =
      Nat.max (Nat.max (m.bytes.length * 2) (sp + size * 2)) 64 := by
  unfold ImmediateManager.add
  dsimp only
  rw [hnone]
  dsimp only
  rw [if_pos hlack]
  exact length_listResize _ _ _

theorem allocRange_of_none (m : ImmediateManager) (size sp : Nat)
    (hnone : findGapLoop size m.occupiedRanges 0 = (none, sp)) :
    allocRangeOf m size = ⟨sp, sp + size⟩ := by
  unfold allocRangeOf
  rw [hnone]

/-!  Batching emit-loop lemmas (claims C1 and C7 machinery). -/

theorem countCmds_append (p : RenderCmd → Bool) (l₁ l₂ : List RenderCmd) :
    countCmds p (l₁ ++ l₂) = countCmds p l₁ + countCmds p l₂ := by
  unfold countCmds
  rw [List.filter_append, List.length_append]

theorem countCmds_eq_zero {p : RenderCmd → Bool} {l : List RenderCmd}
    (h : ∀ c ∈ l, p c = false) : countCmds p l = 0 := by
  unfold countCmds
  rw [List.length_eq_zero, List.filter_eq_nil_iff]
  intro a ha
  rw [h a ha]
  simp

theorem cacheHit_iff (cache : List (Option Nat)) (i bg : Nat) :
    cacheHit cache i bg = true ↔ cache[i]? = some (some bg) := by
  unfold cacheHit
  rcases h : cache[i]? with _ | o
  · simp
  · rcases o with _ | b
    · simp
    · simp [beq_iff_eq]

theorem setBindGroupsLoop_shape : ∀ (bgs : List Nat) (i : Nat)
    (cache : List (Option Nat)), ∀ c ∈ (setBindGroupsLoop i bgs cache).1,
    ∃ n bg, c = RenderCmd.setBindGroup n bg := by
  intro bgs
  induction bgs with
  | nil => intro i cache c hc; simp [setBindGroupsLoop] at hc
  | cons bg rest ih =>
    intro i cache c hc
    unfold setBindGroupsLoop at hc
    by_cases hh : cacheHit cache i bg
    · rw [if_pos hh] at hc
      exact ih _ _ c hc
    · rw [if_neg hh] at hc
      dsimp only at hc
      rcases List.mem_cons.mp hc with hc | hc
      · exact ⟨i, bg, hc⟩
      · exact ih _ _ c hc

theorem setVertexBuffersLoop_shape : ∀ (l : List (BufferRef × Option URange)) (i : Nat),
    ∀ c ∈ setVertexBuffersLoop i l, ∃ s b x y, c = RenderCmd.setVertexBuffer s b x y := by
  intro l
  induction l with
  | nil => intro i c hc; simp [setVertexBuffersLoop] at hc
  | cons br rest ih =>
    intro i c hc
    obtain ⟨buf, range⟩ := br
    unfold setVertexBuffersLoop at hc
    dsimp only at hc
    rcases List.mem_cons.mp hc with hc | hc
    · exact ⟨i, buf.id, _, _, hc⟩
    · exact ih _ c hc

theorem countCmds_setBindGroupsLoop_zero {p : RenderCmd → Bool}
    (hp : ∀ n bg, p (RenderCmd.setBindGroup n bg) = false)
    (bgs : List Nat) (i : Nat) (cache : List (Option Nat)) :
    countCmds p (setBindGroupsLoop i bgs cache).1 = 0 := by
  refine countCmds_eq_zero ?_
  intro c hc
  obtain ⟨n, bg, he⟩ := setBindGroupsLoop_shape bgs i cache c hc
  rw [he]
  exact hp n bg

theorem countCmds_setVertexBuffersLoop_zero {p : RenderCmd → Bool}
    (hp : ∀ s b x y, p (RenderCmd.setVertexBuffer s b x y) = false)
    (l : List (BufferRef × Option URange)) (i : Nat) :
    countCmds p (setVertexBuffersLoop i l) = 0 := by
  refine countCmds_eq_zero ?_
  intro c hc
  obtain ⟨s, b, x, y, he⟩ := setVertexBuffersLoop_shape l i c hc
  rw [he]
  exact hp s b x y

/-- The command list emitted for one draw call, split into its five parts:
pipeline bind, bind-group binds, vertex-buffer binds, immediate data, and
the draw itself. -/
theorem drawCallStep_cmds (im : ImmediateManager) (s : BatchState) (d : DrawCall) :
    (drawCallStep im s d).2 =
      (if s.current_pipeline_id = some d.render_pipeline_handle then []
        else [RenderCmd.setPipeline d.render_pipeline_handle]) ++
      (setBindGroupsLoop 0 d.shader_data.bind_groups (effectiveCache s d)).1 ++
      setVertexBuffersLoop 0 d.geometry.buffers ++
      (match d.shader_data.immediates with
        | some h =>
          match im.get h with
          | some bytes => [RenderCmd.setImmediates bytes]
          | none => []
        | none => []) ++
      (match d.geometry.index_buffer with
        | some ib =>
          [RenderCmd.setIndexBuffer ib.id
            (match d.geometry.index_buffer_range with
              | some r => r
              | none => ⟨0, ib.size⟩).start
            (match d.geometry.index_buffer_range with
              | some r => r
              | none => ⟨0, ib.size⟩).stop,
           RenderCmd.drawIndexed d.geometry.count d.instance_count]
        | none => [RenderCmd.draw d.geometry.count d.instance_count]) := by
  by_cases hp : s.current_pipeline_id = some d.render_pipeline_handle <;>
    simp [drawCallStep, effectiveCache, hp]

theorem countCmds_immCmds (p : RenderCmd → Bool)
    (hp : ∀ bytes, p (RenderCmd.setImmediates bytes) = true)
    (im : ImmediateManager) (imm : Option Nat) :
    countCmds p
      (match imm with
        | some h =>
          match im.get h with
          | some bytes => [RenderCmd.setImmediates bytes]
          | none => []
        | none => []) = if (imm.bind (fun h => im.get h)).isSome then 1 else 0 := by
  rcases imm with _ | h
  · rfl
  · rcases hg : im.get h with _ | bytes
    · simp [Option.bind, hg, countCmds]
    · simp [Option.bind, hg, countCmds, hp]

theorem countCmds_immCmds_zero (p : RenderCmd → Bool)
    (hp : ∀ bytes, p (RenderCmd.setImmediates bytes) = false)
    (im : ImmediateManager) (imm : Option Nat) :
    countCmds p
      (match imm with
        | some h =>
          match im.get h with
          | some bytes => [RenderCmd.setImmediates bytes]
          | none => []
        | none => []) = 0 := by
  rcases imm with _ | h
  · rfl
  · rcases hg : im.get h with _ | bytes
    · simp [countCmds, hg]
    · simp [countCmds, hg, hp]

theorem drawCallStep_pipeline_count (im : ImmediateManager) (s : BatchState) (d : DrawCall) :
    countCmds isSetPipeline (drawCallStep im s d).2 =
      if s.current_pipeline_id = some d.render_pipeline_handle then 0 else 1 := by
  rw [drawCallStep_cmds]
  rw [countCmds_append, countCmds_append, countCmds_append, countCmds_append]
  rw [countCmds_setBindGroupsLoop_zero (fun _ _ => rfl)]
  rw [countCmds_setVertexBuffersLoop_zero (fun _ _ _ _ => rfl)]
  rw [countCmds_immCmds_zero isSetPipeline (fun _ => rfl)]
  have hdraw : countCmds isSetPipeline
      (match d.geometry.index_buffer with
        | some ib =>
          [RenderCmd.setIndexBuffer ib.id
            (match d.geometry.index_buffer_range with
              | some r => r
              | none => ⟨0, ib.size⟩).start
            (match d.geometry.index_buffer_range with
              | some r => r
              | none => ⟨0, ib.size⟩).stop,
           RenderCmd.drawIndexed d.geometry.count d.instance_count]
        | none => [RenderCmd.draw d.geometry.count d.instance_count]) = 0 := by
    rcases d.geometry.index_buffer with _ | ib <;> rfl
  rw [hdraw]
  by_cases hp : s.current_pipeline_id = some d.render_pipeline_handle
  · rw [if_pos hp, if_pos hp]
    rfl
  · rw [if_neg hp, if_neg hp]
    rfl

theorem drawCallStep_draw_count (im : ImmediateManager) (s : BatchState) (d : DrawCall) :
    countCmds isDrawCommand (drawCallStep im s d).2 = 1 := by
  rw [drawCallStep_cmds]
  rw [countCmds_append, countCmds_append, countCmds_append, countCmds_append]
  rw [countCmds_setBindGroupsLoop_zero (fun _ _ => rfl)]
  rw [countCmds_setVertexBuffersLoop_zero (fun _ _ _ _ => rfl)]
  rw [countCmds_immCmds_zero isDrawCommand (fun _ => rfl)]
  have hpipe : countCmds isDrawCommand
      (if s.current_pipeline_id = some d.render_pipeline_handle then []
        else [RenderCmd.setPipeline d.render_pipeline_handle]) = 0 := by
    by_cases hp : s.current_pipeline_id = some d.render_pipeline_handle
    · rw [if_pos hp]; rfl
    · rw [if_neg hp]; rfl
  rw [hpipe]
  rcases d.geometry.index_buffer with _ | ib <;> rfl

theorem drawCallStep_drawIndexed_count (im : ImmediateManager) (s : BatchState)
    (d : DrawCall) :
    countCmds isDrawIndexed (drawCallStep im s d).2 =
      if d.geometry.index_buffer.isSome then 1 else 0 := by
  rw [drawCallStep_cmds]
  rw [countCmds_append, countCmds_append, countCmds_append, countCmds_append]
  rw [countCmds_setBindGroupsLoop_zero (fun _ _ => rfl)]
  rw [countCmds_setVertexBuffersLoop_zero (fun _ _ _ _ => rfl)]
  rw [countCmds_immCmds_zero isDrawIndexed (fun _ => rfl)]
  have hpipe : countCmds isDrawIndexed
      (if s.current_pipeline_id = some d.render_pipeline_handle then []
        else [RenderCmd.setPipeline d.render_pipeline_handle]) = 0 := by
    by_cases hp : s.current_pipeline_id = some d.render_pipeline_handle
    · rw [if_pos hp]; rfl
    · rw [if_neg hp]; rfl
  rw [hpipe]
  rcases d.geometry.index_buffer with _ | ib <;> rfl

theorem drawCallStep_immediates_count (im : ImmediateManager) (s : BatchState)
    (d : DrawCall) :
    countCmds isSetImmediates (drawCallStep im s d).2 =
      if (d.shader_data.immediates.bind (fun h => im.get h)).isSome then 1 else 0 := by
  rw [drawCallStep_cmds]
  rw [countCmds_append, countCmds_append, countCmds_append, countCmds_append]
  rw [countCmds_setBindGroupsLoop_zero (fun _ _ => rfl)]
  rw [countCmds_setVertexBuffersLoop_zero (fun _ _ _ _ => rfl)]
  rw [countCmds_immCmds isSetImmediates (fun _ => rfl)]
  have hpipe : countCmds isSetImmediates
      (if s.current_pipeline_id = some d.render_pipeline_handle then []
        else [RenderCmd.setPipeline d.render_pipeline_handle]) = 0 := by
    by_cases hp : s.current_pipeline_id = some d.render_pipeline_handle
    · rw [if_pos hp]; rfl
    · rw [if_neg hp]; rfl
  rw [hpipe]
  have hdraw : countCmds isSetImmediates
      (match d.geometry.index_buffer with
        | some ib =>
          [RenderCmd.setIndexBuffer ib.id
            (match d.geometry.index_buffer_range with
              | some r => r
              | none => ⟨0, ib.size⟩).start
            (match d.geometry.index_buffer_range with
              | some r => r
              | none => ⟨0, ib.size⟩).stop,
           RenderCmd.drawIndexed d.geometry.count d.instance_count]
        | none => [RenderCmd.draw d.geometry.count d.instance_count]) = 0 := by
    rcases d.geometry.index_buffer with _ | ib <;> rfl
  rw [hdraw]
  omega

theorem emitLoop_draw_count (im : ImmediateManager) :
    ∀ (calls : List DrawCall) (s : BatchState),
      countCmds isDrawCommand (emitLoop im s calls) = calls.length := by
  intro calls
  induction calls with
  | nil => intro s; rfl
  | cons d rest ih =>
    intro s
    unfold emitLoop
    dsimp only
    rw [countCmds_append, drawCallStep_draw_count, ih]
    simp
    omega

theorem execute_draw_count (im : ImmediateManager) (calls : List DrawCall) :
    countCmds isDrawCommand (execute_ordered_draw_calls im calls) = calls.length := by
  unfold execute_ordered_draw_calls sortDrawCalls
  rw [emitLoop_draw_count, length_sortByLe]

/-- Membership of a slot-n bind-group bind in the output of the bind-group
loop starting at slot i: the call uses that identity at position n - i, and
the incoming cache does not already hold it at slot n (updates at earlier
slots never touch slot n). -/
theorem setBindGroupsLoop_mem : ∀ (bgs : List Nat) (i : Nat)
    (cache : List (Option Nat)) (n bg : Nat),
    RenderCmd.setBindGroup n bg ∈ (setBindGroupsLoop i bgs cache).1 ↔
      ∃ t, n = i + t ∧ bgs[t]? = some bg ∧ ¬(cache[n]? = some (some bg)) := by
  intro bgs
  induction bgs with
  | nil =>
    intro i cache n bg
    simp [setBindGroupsLoop]
  | cons b rest ih =>
    intro i cache n bg
    unfold setBindGroupsLoop
    by_cases hh : cacheHit cache i b
    · rw [if_pos hh]
      rw [ih (i + 1) cache n bg]
      constructor
      · intro ⟨t, h1, h2, h3⟩
        exact ⟨t + 1, by omega, by simpa using h2, h3⟩
      · intro ⟨t, h1, h2, h3⟩
        rcases t with _ | t
        · -- slot i itself: contradicts the cache hit
          exfalso
          simp only [List.getElem?_cons_zero] at h2
          cases h2
          rw [cacheHit_iff] at hh
          have hni : n = i := by omega
          rw [hni] at h3
          exact h3 hh
        · exact ⟨t, by omega, by simpa using h2, h3⟩
    · rw [if_neg hh]
      dsimp only
      rw [List.mem_cons]
      have hcache : ∀ m, m ≠ i →
          ((if i < cache.length then cache.set i (some b) else cache)[m]?) =
            cache[m]? := by
        intro m hm
        by_cases hlen : i < cache.length
        · rw [if_pos hlen]
          exact List.getElem?_set_ne (by omega)
        · rw [if_neg hlen]
      constructor
      · intro hc
        rcases hc with hc | hc
        · -- the head command
          have h1 : n = i ∧ bg = b := by
            cases hc
            exact ⟨rfl, rfl⟩
          obtain ⟨hn, hbg⟩ := h1
          refine ⟨0, by omega, by rw [hbg]; simp, ?_⟩
          rw [hn, hbg]
          intro hmem
          rw [← cacheHit_iff] at hmem
          exact hh hmem
        · rw [ih] at hc
          obtain ⟨t, h1, h2, h3⟩ := hc
          refine ⟨t + 1, by omega, by simpa using h2, ?_⟩
          rw [← hcache n (by omega)]
          exact h3
      · intro ⟨t, h1, h2, h3⟩
        rcases t with _ | t
        · left
          simp only [List.getElem?_cons_zero] at h2
          cases h2
          have hni : n = i := by omega
          rw [hni]
        · right
          rw [ih]
          refine ⟨t, by omega, by simpa using h2, ?_⟩
          rw [hcache n (by omega)]
          exact h3

/-- Slot-n bind-group binds of one draw call: emitted exactly when the
call uses identity `bg` at slot n and the effective cache (invalidated on
a pipeline switch) does not already hold it there. -/
theorem drawCallStep_setBindGroup_mem (im : ImmediateManager) (s : BatchState)
    (d : DrawCall) (n bg : Nat) :
    RenderCmd.setBindGroup n bg ∈ (drawCallStep im s d).2 ↔
      d.shader_data.bind_groups[n]? = some bg ∧
        ¬((effectiveCache s d)[n]? = some (some bg)) := by
  rw [drawCallStep_cmds]
  have h1 : RenderCmd.setBindGroup n bg ∉
      (if s.current_pipeline_id = some d.render_pipeline_handle then ([] : List RenderCmd)
        else [RenderCmd.setPipeline d.render_pipeline_handle]) := by
    by_cases hp : s.current_pipeline_id = some d.render_pipeline_handle <;> simp [hp]
  have h2 : RenderCmd.setBindGroup n bg ∉ setVertexBuffersLoop 0 d.geometry.buffers := by
    intro hc
    obtain ⟨a, b, x, y, he⟩ := setVertexBuffersLoop_shape _ _ _ hc
    simp at he
  have h3 : RenderCmd.setBindGroup n bg ∉
      (match d.shader_data.immediates with
        | some h =>
          match im.get h with
          | some bytes => [RenderCmd.setImmediates bytes]
          | none => []
        | none => []) := by
    rcases d.shader_data.immediates with _ | h
    · simp
    · rcases hg : im.get h with _ | bytes <;> simp [hg]
  have h4 : RenderCmd.setBindGroup n bg ∉
      (match d.geometry.index_buffer with
        | some ib =>
          [RenderCmd.setIndexBuffer ib.id
            (match d.geometry.index_buffer_range with
              | some r => r
              | none => ⟨0, ib.size⟩).start
            (match d.geometry.index_buffer_range with
              | some r => r
              | none => ⟨0, ib.size⟩).stop,
           RenderCmd.drawIndexed d.geometry.count d.instance_count]
        | none => [RenderCmd.draw d.geometry.count d.instance_count]) := by
    rcases d.geometry.index_buffer with _ | ib <;> simp
  simp only [List.mem_append, h1, h2, h3, h4, false_or, or_false]
  rw [setBindGroupsLoop_mem]
  constructor
  · intro ⟨t, h5, h6, h7⟩
    have : t = n := by omega
    subst this
    exact ⟨h6, h7⟩
  · intro ⟨h5, h6⟩
    exact ⟨n, by omega, h5, h6⟩

theorem map_none_getElem (l : List (Option Nat)) (n bg : Nat) :
    ¬((l.map (fun _ => (none : Option Nat)))[n]? = some (some bg)) := by
  rw [List.getElem?_map]
  rcases h : l[n]? with _ | o <;> simp

theorem free_ok_available {p : IdPool} {id : Nat} (h : (p.free id).2 = true) :
    (p.free id).1.available = id :: p.available := by
  unfold IdPool.free at h ⊢
  by_cases hc : id < p.current
  · rw [if_pos hc]
  · rw [if_neg hc] at h
    simp at h

theorem get_clone_isSome_iff {V : Type} (c : CollectionInner V)
    (hs : List.Pairwise (· ≤ ·) c.ids) (id : Nat) :
    (c.get_clone id).isSome ↔ id ∈ c.ids := by
  unfold CollectionInner.get_clone
  rcases hb : binarySearchByKey (c.data.map EntryM.id) id with _ | index
  · simp only [Option.isSome_none, Bool.false_eq_true, false_iff]
    intro hmem
    have hsome := (binarySearchByKey_isSome_iff c.ids id hs).mpr hmem
    have hb' : binarySearchByKey c.ids id = none := hb
    rw [hb'] at hsome
    simp at hsome
  · have hsound : (c.data.map EntryM.id)[index]? = some id := binarySearchByKey_sound hb
    have hlt : index < c.data.length := by
      rw [List.getElem?_eq_some] at hsound
      obtain ⟨h, _⟩ := hsound
      simpa using h
    have hmem : id ∈ c.ids := by
      rw [List.getElem?_eq_some] at hsound
      obtain ⟨h, he⟩ := hsound
      exact he ▸ List.getElem_mem h
    simp only [hmem, iff_true]
    rw [List.getElem?_eq_getElem hlt]
    simp

theorem allocRangeOf_start_stop (m : ImmediateManager) (size : Nat) :
    (allocRangeOf m size).start = chosenStart size m.occupiedRanges 0 ∧
    (allocRangeOf m size).stop = (allocRangeOf m size).start + size := by
  unfold allocRangeOf chosenStart
  rcases hf : findGapLoop size m.occupiedRanges 0 with ⟨o, sp⟩
  rcases o with _ | r
  · exact ⟨rfl, rfl⟩
  · exact ⟨rfl, findGapLoop_some_shape size m.occupiedRanges 0 r sp hf⟩

/-!  The claims. -/

/-- C1: in the batching emit loop no redundant state change is emitted: a
pipeline bind is emitted for a draw call iff its pipeline differs from the
currently bound one; a slot-n bind-group bind is emitted iff the slot is
used with that identity and the effective cache (the incoming cache,
invalidated wholesale by a pipeline switch) does not already hold it; after
a pipeline switch a slot bind is emitted for every used slot regardless of
the old cache contents (the whole cache was invalidated); for pipelines
[A, B, A] with no bind groups exactly 2 pipeline binds are emitted; two
consecutive calls under one pipeline with the same slot-0 bind group emit
exactly one slot-0 bind. -/
theorem claim_C1_batching_no_redundant_state_changes :
    (∀ (im : ImmediateManager) (s : BatchState) (d : DrawCall),
      countCmds isSetPipeline (drawCallStep im s d).2 =
        if s.current_pipeline_id = some d.render_pipeline_handle then 0 else 1) ∧
    (∀ (im : ImmediateManager) (s : BatchState) (d : DrawCall) (n bg : Nat),
      RenderCmd.setBindGroup n bg ∈ (drawCallStep im s d).2 ↔
        d.shader_data.bind_groups[n]? = some bg ∧
          ¬((effectiveCache s d)[n]? = some (some bg))) ∧
    (∀ (im : ImmediateManager) (s : BatchState) (d : DrawCall) (n bg : Nat),
      ¬(s.current_pipeline_id = some d.render_pipeline_handle) →
      (RenderCmd.setBindGroup n bg ∈ (drawCallStep im s d).2 ↔
        d.shader_data.bind_groups[n]? = some bg)) ∧
    countCmds isSetPipeline (execute_ordered_draw_calls ImmediateManager.new
      [⟨⟨none, none, [], 3⟩, ⟨none, []⟩, 1, 0⟩,
       ⟨⟨none, none, [], 3⟩, ⟨none, []⟩, 1, 1⟩,
       ⟨⟨none, none, [], 3⟩, ⟨none, []⟩, 1, 0⟩]) = 2 ∧
    countCmds (isSetBindGroupAt 0) (execute_ordered_draw_calls ImmediateManager.new
      [⟨⟨none, none, [], 3⟩, ⟨none, [7]⟩, 1, 5⟩,
       ⟨⟨none, none, [], 3⟩, ⟨none, [7]⟩, 1, 5⟩]) = 1 := by
  refine ⟨drawCallStep_pipeline_count, drawCallStep_setBindGroup_mem, ?_, by decide, by decide⟩
  intro im s d n bg hp
  rw [drawCallStep_setBindGroup_mem]
  have he : effectiveCache s d = s.current_bind_groups.map (fun _ => none) := by
    unfold effectiveCache
    rw [if_neg hp]
  rw [he]
  have := map_none_getElem s.current_bind_groups n bg
  tauto

/-- C1 witness: the pipeline-switch conjunct applied at a concrete state
(no pipeline bound, empty cache) and draw call (pipeline 5, bind group 7 at
slot 0). -/
theorem claim_C1_witness :
    RenderCmd.setBindGroup 0 7 ∈
        (drawCallStep ImmediateManager.new ⟨none, [none, none, none]⟩
          ⟨⟨none, none, [], 3⟩, ⟨none, [7]⟩, 1, 5⟩).2 ↔
      (([7] : List Nat)[0]? = some 7) :=
  claim_C1_batching_no_redundant_state_changes.2.2.1 ImmediateManager.new
    ⟨none, [none, none, none]⟩ ⟨⟨none, none, [], 3⟩, ⟨none, [7]⟩, 1, 5⟩ 0 7 (by decide)

/-- C7: every submitted draw call produces exactly one draw command in the
output (indexed iff it carries an index buffer); a draw call whose
immediate-data id does not resolve in the ImmediateManager simply emits no
immediate-data command and still emits its one draw command; the empty
draw-call list emits no commands at all. -/
theorem claim_C7_one_draw_per_call :
    (∀ (im : ImmediateManager) (calls : List DrawCall),
      countCmds isDrawCommand (execute_ordered_draw_calls im calls) = calls.length) ∧
    (∀ (im : ImmediateManager) (s : BatchState) (d : DrawCall),
      countCmds isDrawCommand (drawCallStep im s d).2 = 1) ∧
    (∀ (im : ImmediateManager) (s : BatchState) (d : DrawCall),
      countCmds isDrawIndexed (drawCallStep im s d).2 =
        if d.geometry.index_buffer.isSome then 1 else 0) ∧
    (∀ (im : ImmediateManager) (s : BatchState) (d : DrawCall),
      countCmds isSetImmediates (drawCallStep im s d).2 =
        if (d.shader_data.immediates.bind (fun h => im.get h)).isSome then 1 else 0) ∧
    (∀ im : ImmediateManager, execute_ordered_draw_calls im [] = []) :=
  ⟨execute_draw_count, drawCallStep_draw_count, drawCallStep_drawIndexed_count,
   drawCallStep_immediates_count, fun _ => rfl⟩

/-- C2 counterexample: on an empty manager, add(32) then add(50).  At the
second add the scan ends at position 32 with no fitting gap and the buffer
(64 bytes) lacks space, so the code grows it to
max(64 * 2, 32 + 50 * 2, 64) = 132 bytes — not to
max(64 * 2, (32 + 50) * 2, 64) = 164 as the claimed formula
(current length * 2, would-be END of the new allocation * 2, minimum)
requires. -/
theorem claim_C2_counterexample :
    findGapLoop 50 ((ImmediateManager.new.add 32).2).occupiedRanges 0 = (none, 32) ∧
    (ImmediateManager.new.add 32).2.bytes.length = 64 ∧
    (((ImmediateManager.new.add 32).2).add 50).2.bytes.length = 132 ∧
    ¬((((ImmediateManager.new.add 32).2).add 50).2.bytes.length =
        Nat.max (Nat.max ((ImmediateManager.new.add 32).2.bytes.length * 2) ((32 + 50) * 2))
          64) := by
  decide

set_option maxRecDepth 4000 in
/-- C2 (amended): when `add(size)` finds no fitting gap (scan ends at
`sp`, the end of the used region) and the space after `sp` is too small,
the buffer is grown to max(current length * 2, sp + size * 2, 64) — the
second argument is the allocation START plus TWICE the size, not twice the
allocation end — and the new allocation is recorded as [sp, sp + size) at
the returned id; from an empty manager, add(100) yields a 200-byte buffer
(at least 100) holding the recorded range [0, 100). -/
theorem claim_C2_growth_amended :
    (∀ (m : ImmediateManager) (size sp : Nat),
      findGapLoop size m.occupiedRanges 0 = (none, sp) →
      usizeSub m.bytes.length sp < size →
      ((m.add size).2).bytes.length =
          Nat.max (Nat.max (m.bytes.length * 2) (sp + size * 2)) 64 ∧
        ((m.add size).2).entries[(m.add size).1]? = some (some ⟨sp, sp + size⟩)) ∧
    ((ImmediateManager.new.add 100).2.bytes.length = 200 ∧
      100 ≤ (ImmediateManager.new.add 100).2.bytes.length ∧
      ((ImmediateManager.new.add 100).2).entries[(ImmediateManager.new.add 100).1]? =
        some (some ⟨0, 100⟩)) := by
  constructor
  · intro m size sp hnone hlack
    refine ⟨add_bytes_grow m size sp hnone hlack, ?_⟩
    rw [add_sets_entry, allocRange_of_none m size sp hnone]
  · exact ⟨by decide, by decide, by decide⟩

/-- C2 witness: the growth formula applied to the counterexample state
(buffer of 64 bytes, used region ending at 32, request of 50). -/
theorem claim_C2_growth_witness :
    (((ImmediateManager.new.add 32).2).add 50).2.bytes.length =
        Nat.max (Nat.max ((ImmediateManager.new.add 32).2.bytes.length * 2) (32 + 50 * 2))
          64 :=
  (claim_C2_growth_amended.1 (ImmediateManager.new.add 32).2 50 32 (by decide) (by decide)).1

/-- C3: `add(size)` is first-fit.  The recorded range always starts at the
scan-chosen position with length `size`; on a well-separated occupied list
the chosen position is the first position at which a `size`-byte block
overlaps no occupied range; and concretely add(16), remove, add(16) on a
fresh manager returns id 0 with range [0, 16) both times. -/
theorem claim_C3_first_fit :
    (∀ (m : ImmediateManager) (size : Nat),
      (m.add size).1 = (m.id_pool.get_next).1 ∧
      ((m.add size).2).entries[(m.add size).1]? = some (some (allocRangeOf m size)) ∧
      (allocRangeOf m size).start = chosenStart size m.occupiedRanges 0 ∧
      (allocRangeOf m size).stop = (allocRangeOf m size).start + size) ∧
    (∀ (size : Nat) (rs : List URange) (sp : Nat),
      wellSeparatedFrom sp rs = true → sp < USIZE → (∀ r ∈ rs, r.stop < USIZE) →
      sp ≤ chosenStart size rs sp ∧ fitsAt (chosenStart size rs sp) size rs ∧
        ∀ q, sp ≤ q → q < chosenStart size rs sp → ¬ fitsAt q size rs) ∧
    ((ImmediateManager.new.add 16).1 = 0 ∧
      ((ImmediateManager.new.add 16).2).entries[0]? = some (some ⟨0, 16⟩) ∧
      ((((ImmediateManager.new.add 16).2).remove 0).1.add 16).1 = 0 ∧
      (((((ImmediateManager.new.add 16).2).remove 0).1.add 16).2).entries[0]? =
        some (some ⟨0, 16⟩)) := by
  refine ⟨?_, findGapLoop_first_fit, by decide⟩
  intro m size
  have h := allocRangeOf_start_stop m size
  exact ⟨add_id_eq m size, add_sets_entry m size, h.1, h.2⟩

/-- C3 witness: the first-fit characterization applied to the occupied
list [0,5), [6,10) with a request of 3 bytes: the chosen start is 10 (the
1-byte gap at 5 is skipped), at or after the scan origin 0. -/
theorem claim_C3_first_fit_witness :
    chosenStart 3 [⟨0, 5⟩, ⟨6, 10⟩] 0 = 10 ∧ 0 ≤ chosenStart 3 [⟨0, 5⟩, ⟨6, 10⟩] 0 :=
  ⟨by decide,
   (claim_C3_first_fit.2.1 3 [⟨0, 5⟩, ⟨6, 10⟩] 0 (by decide) (by decide) (by decide)).1⟩

/-- C9: the claimed invariant fails.  In the failing trace every remove
targets a live id, yet the final state holds the occupied ranges [6, 10)
(id 2) and [5, 8) (id 3), which overlap. -/
theorem claim_C9_overlap_bug :
    ((((ImmediateManager.new.add 5).2.add 1).2.add 4).2.remove 1).2 = true ∧
    immBugTrace.entries[2]? = some (some ⟨6, 10⟩) ∧
    immBugTrace.entries[3]? = some (some ⟨5, 8⟩) ∧
    rangesOverlap ⟨6, 10⟩ ⟨5, 8⟩ = true := by
  decide

/-- C4: for a handle on entry `id` of a storage satisfying the invariant,
with the shared counter at N+1 (the original handle plus N clones): cloning
yields a handle with the same id and increments the counter by one; after
any k ≤ N drops no deletion has happened, the entry is still present and
the counter reads N+1-k; after all N+1 drops exactly one deletion has
happened, the entry is gone and its id is back in the pool. -/
theorem claim_C4_handle_refcount (V : Type) (N : Nat) (c : CollectionInner V) (id : Nat)
    (hinv : StoreInv c) (hmem : id ∈ c.ids) :
    (∀ (w : ManagedWorld V) (i : Nat),
      (w.cloneHandle i).2 = i ∧ (w.cloneHandle i).1.count = w.count + 1) ∧
    (∀ k, k ≤ N →
      (dropN k ⟨N + 1, c⟩ id).2 = 0 ∧
      id ∈ ((dropN k ⟨N + 1, c⟩ id).1).coll.ids ∧
      (dropN k ⟨N + 1, c⟩ id).1.count = N + 1 - k) ∧
    (dropN (N + 1) ⟨N + 1, c⟩ id).2 = 1 ∧
    id ∉ ((dropN (N + 1) ⟨N + 1, c⟩ id).1).coll.ids ∧
    id ∈ ((dropN (N + 1) ⟨N + 1, c⟩ id).1).coll.id_pool.available := by
  obtain ⟨-, -, hgone, hpool⟩ := storeInv_delete hinv hmem
  refine ⟨fun w i => ⟨rfl, rfl⟩, ?_, ?_, ?_, ?_⟩
  · intro k hk
    rw [dropN_lt id k N c hk]
    exact ⟨rfl, hmem, rfl⟩
  · rw [dropN_full]
  · rw [dropN_full]
    exact hgone
  · rw [dropN_full]
    exact hpool

/-- C4 witness: one entry (id 0, value 42), two clones (counter 3), three
drops: exactly one deletion is performed. -/
theorem claim_C4_handle_refcount_witness :
    (dropN 3 ⟨3, ((CollectionInner.empty Nat).create 42).2⟩ 0).2 = 1 :=
  (claim_C4_handle_refcount Nat 2 ((CollectionInner.empty Nat).create 42).2 0
    (by unfold StoreInv CollectionInner.ids; decide) (by decide)).2.2.1

/-- C5: after any sequence of create/delete operations from the empty
storage in which every delete completes (its binary search finds the id —
under the invariant, exactly the live ids), the stored id sequence is
sorted and duplicate-free, and `get_clone` lookup succeeds exactly for the
currently stored ids. -/
theorem claim_C5_storage_sorted_lookup (V : Type) (ops : List (StoreOp V))
    (c' : CollectionInner V)
    (hex : execStore (CollectionInner.empty V) ops = some c') :
    List.Pairwise (· < ·) c'.ids ∧ c'.ids.Nodup ∧
    ∀ id, (c'.get_clone id).isSome ↔ id ∈ c'.ids := by
  have hinv := execStore_inv ops (CollectionInner.empty V) c' (storeInv_empty V) hex
  obtain ⟨h1, -, -, -, -⟩ := hinv
  refine ⟨h1, h1.imp Nat.ne_of_lt, ?_⟩
  intro id
  exact get_clone_isSome_iff c' (h1.imp le_of_lt) id

/-- C5 witness: the ops create 7, create 8, delete 0 leave the storage
holding exactly id 1; lookup succeeds for 1 and the ids are sorted. -/
theorem claim_C5_storage_sorted_lookup_witness :
    List.Pairwise (· < ·) (CollectionInner.mk [EntryM.mk 8 1] ⟨2, [0]⟩).ids ∧
    ((CollectionInner.mk [EntryM.mk 8 1] ⟨2, [0]⟩).get_clone 1).isSome ∧
    ¬((CollectionInner.mk [EntryM.mk 8 1] ⟨2, [0]⟩).get_clone 0).isSome := by
  have h := claim_C5_storage_sorted_lookup Nat
    [StoreOp.create 7, StoreOp.create 8, StoreOp.delete 0]
    (CollectionInner.mk [EntryM.mk 8 1] ⟨2, [0]⟩) (by decide)
  refine ⟨h.1, (h.2.2 1).mpr (by decide), ?_⟩
  intro hs
  exact absurd ((h.2.2 0).mp hs) (by decide)

/-- C6: along any well-formed pool trace (each free targets an id that is
issued and not yet freed), `get_next` never returns an id that is
currently in use; when the free stack is non-empty it returns its top —
and immediately after `free(id)` it returns exactly that id (LIFO reuse) —
otherwise it returns the counter value and increments the counter. -/
theorem claim_C6_idpool_get_next (ops : List PoolOp) (p : IdPool) (live : List Nat)
    (hex : execPool (IdPool.new, []) ops = some (p, live)) :
    ((p.get_next).1 ∉ live) ∧
    (∀ id t, p.available = id :: t → (p.get_next).1 = id) ∧
    (p.available = [] →
      (p.get_next).1 = p.current ∧ ((p.get_next).2).current = p.current + 1) ∧
    (∀ (pre : List PoolOp) (id : Nat) (p' : IdPool) (live' : List Nat),
      execPool (IdPool.new, []) (pre ++ [PoolOp.free id]) = some (p', live') →
      ((p').get_next).1 = id) := by
  have hinit : PoolInv IdPool.new [] := by
    refine ⟨?_, ?_, ?_, ?_, ?_⟩ <;> simp [IdPool.new]
  have hinv := execPool_inv ops (IdPool.new, []) (p, live) hinit hex
  dsimp only at hinv
  obtain ⟨h1, h2, h3, h4, h5⟩ := hinv
  refine ⟨?_, ?_, ?_, ?_⟩
  · rcases hav : p.available with _ | ⟨hd, t⟩
    · have hg : (p.get_next).1 = p.current := by simp [IdPool.get_next, hav]
      rw [hg]
      intro hmem
      have := h1 _ hmem
      omega
    · have hg : (p.get_next).1 = hd := by simp [IdPool.get_next, hav]
      rw [hg]
      intro hmem
      exact h3 hd hmem (by rw [hav]; exact List.mem_cons_self _ _)
  · intro id t hav
    simp [IdPool.get_next, hav]
  · intro hav
    constructor <;> simp [IdPool.get_next, hav]
  · intro pre id p' live' hex'
    rw [execPool_append] at hex'
    rcases h0 : execPool (IdPool.new, []) pre with _ | s0
    · rw [h0] at hex'
      exact absurd hex' (by simp)
    · rw [h0] at hex'
      simp only [Option.some_bind] at hex'
      obtain ⟨p0, live0⟩ := s0
      simp only [execPool] at hex'
      by_cases hm : id ∈ live0
      · simp only [hm, if_pos] at hex'
        by_cases hok : (p0.free id).2
        · simp only [hok, if_pos, execPool] at hex'
          have hp' : p' = (p0.free id).1 := by
            cases hex'
            rfl
          have hav := free_ok_available hok
          rw [hp']
          simp [IdPool.get_next, hav]
        · simp only [Bool.not_eq_true] at hok
          simp [hok] at hex'
      · simp [hm] at hex'

/-- C6 witness: after next then free 0 (pool state: counter 1, stack [0],
no live ids) the next `get_next` returns the freed id 0 (LIFO reuse). -/
theorem claim_C6_idpool_witness :
    ((IdPool.mk 1 [0]).get_next).1 = 0 :=
  (claim_C6_idpool_get_next [PoolOp.next, PoolOp.free 0] ⟨1, [0]⟩ []
    (by decide)).2.1 0 [] rfl

/-- C8 counterexample: the pool reached by next, free 0 has id 0 already
free.  Calling free(0) again — an id that is already free, violating the
contract — does NOT fail the assertion (the Bool panic flag stays true):
the id is silently pushed a second time, leaving the stack [0, 0].  So a
contract-violating free is not always detected by the assertion, contrary
to the claim. -/
theorem claim_C8_counterexample :
    execPool (IdPool.new, []) [PoolOp.next, PoolOp.free 0] = some (⟨1, [0]⟩, []) ∧
    ((IdPool.mk 1 [0]).free 0).2 = true ∧
    ((IdPool.mk 1 [0]).free 0).1.available = [0, 0] := by
  decide

/-- C8 (amended): `free(id)` fails fast via its (debug) assertion exactly
when the id was never issued by the pool (id at or above the counter); an
id below the counter — including one that is already free — passes the
assertion and is pushed onto the free stack unconditionally, so a
double-free is silent. -/
theorem claim_C8_free_assertion_amended :
    (∀ (p : IdPool) (id : Nat), ((p.free id).2 = false ↔ p.current ≤ id)) ∧
    (∀ (p : IdPool) (id : Nat), id < p.current →
      (p.free id).2 = true ∧ (p.free id).1.available = id :: p.available) := by
  constructor
  · intro p id
    unfold IdPool.free
    by_cases hc : id < p.current
    · rw [if_pos hc]
      simp
      omega
    · rw [if_neg hc]
      simp
      omega
  · intro p id hc
    unfold IdPool.free
    rw [if_pos hc]
    exact ⟨rfl, rfl⟩

/-- C8 witness: freeing id 1 in a pool with counter 2 passes the assertion
and pushes 1. -/
theorem claim_C8_free_assertion_witness :
    ((IdPool.mk 2 []).free 1).2 = true ∧
    ((IdPool.mk 2 []).free 1).1.available = [1] :=
  claim_C8_free_assertion_amended.2 ⟨2, []⟩ 1 (by decide)

/-- C10: `delete(id)` on an absent (but previously issued) id panics only
AFTER returning the id to the pool: the operation reports the panic, the
data is untouched, yet the free stack has gained the id — and the very
next `get_next` hands that id out again even though no entry was ever
removed. -/
theorem claim_C10_delete_frees_before_check (V : Type) (c : CollectionInner V) (id : Nat)
    (hcur : id < c.id_pool.current)
    (hsearch : binarySearchByKey (c.data.map EntryM.id) id = none) :
    (c.delete id).2 = false ∧
    (c.delete id).1.id_pool.available = id :: c.id_pool.available ∧
    (c.delete id).1.data = c.data ∧
    ((c.delete id).1.id_pool.get_next).1 = id := by
  have hd : c.delete id =
      ({ data := c.data,
         id_pool := { c.id_pool with available := id :: c.id_pool.available } }, false) := by
    unfold CollectionInner.delete IdPool.free
    rw [if_pos hcur]
    dsimp only
    rw [hsearch]
    simp
  rw [hd]
  refine ⟨rfl, rfl, rfl, ?_⟩
  simp [IdPool.get_next]

/-- C10 witness: a storage that held id 0 and deleted it (empty data,
counter 1, stack [0]); deleting 0 again panics with the stack already
mutated to [0, 0], and `get_next` then returns 0. -/
theorem claim_C10_delete_frees_before_check_witness :
    ((CollectionInner.mk ([] : List (EntryM Nat)) ⟨1, [0]⟩).delete 0).2 = false ∧
    ((CollectionInner.mk ([] : List (EntryM Nat)) ⟨1, [0]⟩).delete 0).1.id_pool.available =
      [0, 0] ∧
    ((CollectionInner.mk ([] : List (EntryM Nat)) ⟨1, [0]⟩).delete 0).1.data = [] ∧
    (((CollectionInner.mk ([] : List (EntryM Nat)) ⟨1, [0]⟩).delete
        0).1.id_pool.get_next).1 = 0 :=
  claim_C10_delete_frees_before_check Nat
    (CollectionInner.mk ([] : List (EntryM Nat)) ⟨1, [0]⟩) 0 (by decide) (by decide)

end WgpuRenderer
